import Mathlib

/-!
Verification of the SixtyNine expression-search engine.

The development shallowly embeds the JavaScript source: the `Exact`
arbitrary-precision fraction class, the `Atom2`/`Expression2` term model,
and the `getExpression_version3` enumeration engine, together with its
result projector.  JavaScript `BigInt` values become `Int`, `BigInt`
division and remainder (which truncate toward zero) become `Int.tdiv`,
and JavaScript object tables become insertion-ordered association lists
whose `for...in` enumeration order (array-index keys ascending, then the
remaining keys in insertion order) is reproduced explicitly.  Loops that
are not structurally recursive in the source are given an explicit fuel
argument that provably dominates the number of iterations, so that every
definition evaluates inside the kernel.
-/

/-- The `Exact` class: a signed fraction of arbitrary-precision integers
(`num`, `den`) plus the `root` marker used to flag values produced by a
fractional exponent. -/
structure Exact where
  num : Int
  den : Int
  root : Int
deriving DecidableEq, Repr

namespace Exact

/-- One pass of the source's `static gcd` loop
(`X %= Y; if (X == 0) return Y; Y %= X`), with explicit fuel.  The source
loops `while (true)`; the fuel argument is chosen by the wrapper so that it
strictly dominates the number of iterations. -/
def gcdLoop : Nat → Nat → Nat → Nat
  | 0, X, _ => X
  | fuel + 1, X, Y =>
    if Y = 0 then X
    else
      let X1 := X % Y
      if X1 = 0 then Y
      else gcdLoop fuel X1 (Y % X1)

/-- `Exact.gcd`: the source first swaps its arguments so the larger comes
first, then runs the remainder loop.  Every call site passes the absolute
value of a numerator and a (nonnegative) denominator, so the embedding
takes natural numbers. -/
def gcd (X Y : Nat) : Nat :=
  if X < Y then gcdLoop (X + 1) Y X else gcdLoop (Y + 1) X Y

/-- `Exact.Abs`. -/
def Abs (X : Int) : Int := if X < 0 then -X else X

/-- `get inverse`: flips the fraction, normalizing the sign into the
numerator; the `root` marker is carried over. -/
def inverse (a : Exact) : Exact :=
  ⟨(if a.num < 0 then (-1 : Int) else 1) * a.den, Abs a.num, a.root⟩

/-- `plus`: cross-multiplied sum followed by gcd reduction.  The result is
built from `new Exact(1)`, so its `root` is `1`. -/
def plus (a b : Exact) : Exact :=
  let Num := a.num * b.den + a.den * b.num
  let Den := a.den * b.den
  let GCD : Int := (gcd Num.natAbs Den.natAbs : Nat)
  ⟨Num.tdiv GCD, Den.tdiv GCD, 1⟩

/-- `minus`: cross-multiplied difference followed by gcd reduction. -/
def minus (a b : Exact) : Exact :=
  let Num := a.num * b.den - a.den * b.num
  let Den := a.den * b.den
  let GCD : Int := (gcd Num.natAbs Den.natAbs : Nat)
  ⟨Num.tdiv GCD, Den.tdiv GCD, 1⟩

/-- `times`: componentwise product; the degenerate case where the gcd is
zero returns `new Exact(0)`. -/
def times (a b : Exact) : Exact :=
  let Num := a.num * b.num
  let Den := a.den * b.den
  let GCD : Int := (gcd Num.natAbs Den.natAbs : Nat)
  if GCD = 0 then ⟨0, 1, 1⟩
  else ⟨Num.tdiv GCD, Den.tdiv GCD, 1⟩

/-- `over`: returns the error flag (`none`) when the divisor's numerator is
zero; otherwise multiplies by the reciprocal, normalizing the sign so the
denominator stays positive, and reduces. -/
def over (a b : Exact) : Option Exact :=
  if b.num = 0 then none
  else
    let Num := a.num * b.den
    let Den := a.den * b.num
    let AbsDen := Abs Den
    let GCD : Int := (gcd (Abs Num).natAbs AbsDen.natAbs : Nat)
    let Factor : Int := if Den < 0 then -1 else 1
    some ⟨(Factor * Num).tdiv GCD, AbsDen.tdiv GCD, 1⟩

end Exact

/-- `BigIntLog10`'s loop body (`while (Abs(bigInt) > 10n) { bigInt /= 10n;
counter++ }`) with fuel; the initial value itself dominates the number of
divisions by ten. -/
def BigIntLog10Aux : Nat → Nat → Nat
  | 0, _ => 0
  | fuel + 1, n => if 10 < n then BigIntLog10Aux fuel (n / 10) + 1 else 0

/-- `BigIntLog10`: counts how many times the magnitude can be divided by
ten before dropping to ten or below.  (JavaScript repeatedly divides the
signed `BigInt`, truncating toward zero, which on absolute values is plain
division by ten.) -/
def BigIntLog10 (x : Int) : Nat := BigIntLog10Aux x.natAbs x.natAbs

/-- Result of an `Exact` operation that may raise a flag object:
`ok` an exact value, `error` (`{ error: true }`), or `overflow`
(`{ overflow: true }`). -/
inductive EResult where
  | ok (e : Exact)
  | error
  | overflow
deriving DecidableEq, Repr

namespace Exact

/-- The accumulation loop of `toThe`
(`for (let i = 1n; i < NumAbs; i += 1n)`): each iteration multiplies the
accumulator by the (possibly inverted) base and fails with the overflow
flag (`none`) as soon as the decimal-digit-length difference between
numerator and denominator exceeds 20.  The iteration count `NumAbs - 1` is
passed explicitly. -/
def powLoop (This : Exact) : Nat → Exact → Option Exact
  | 0, Res => some Res
  | k + 1, Res =>
    let R := Res.times This
    if 20 < ((BigIntLog10 R.num : Int) - (BigIntLog10 R.den : Int)).natAbs
    then none
    else powLoop This k R

/-- `toThe`: rejects exponents carrying a root marker, inverts the base for
negative exponents, refuses exponent magnitudes above 100 outright, runs
the guarded multiplication loop, and finally reduces and tags the result
with the exponent's denominator as its root. -/
def toThe (a b : Exact) : EResult :=
  if b.root ≠ 1 then .error
  else
    let Root := b.den
    let This := if b.num < 0 then a.inverse else a
    let NumAbs := b.num.natAbs
    if 100 < NumAbs then .overflow
    else
      match powLoop This (NumAbs - 1) This with
      | none => .overflow
      | some Res =>
        let GCD : Int := (gcd (Abs Res.num).natAbs Res.den.natAbs : Nat)
        .ok ⟨Res.num.tdiv GCD, Res.den.tdiv GCD, Root⟩

end Exact

/-- The character for a decimal digit (`Digit.indexOf(Mod).toString()`). -/
def digitChar (d : Nat) : Char := Char.ofNat (48 + d)

/-- The digit-extraction loop of `get display`
(`while (Int > 0n) { returnString = digit + returnString; Int /= 10n }`),
with fuel: the loop prepends the lowest digit, so the result lists the
decimal digits most-significant first. -/
def natDigitsAux : Nat → Nat → List Char
  | 0, _ => []
  | fuel + 1, n =>
    if n = 0 then [] else natDigitsAux fuel (n / 10) ++ [digitChar (n % 10)]

/-- Decimal digit characters of a natural number (empty for zero). -/
def natDigits (n : Nat) : List Char := natDigitsAux n n

/-- Signed decimal rendering used by `get display` for a nonzero
numerator: an optional minus sign followed by the digits. -/
def intStr (v : Int) : String :=
  String.mk ((if v < 0 then ['-'] else []) ++ natDigits v.natAbs)

/-- `get display`: the float marker (`none`) when the value is not a plain
integer (`den ≠ 1` or `root ≠ 1`), the literal string `"0"` for zero, and
the signed decimal string otherwise. -/
def Exact.display (e : Exact) : Option String :=
  if e.den ≠ 1 ∨ e.root ≠ 1 then none
  else if e.num = 0 then some (String.mk ['0'])
  else some (intStr e.num)

/-! ### Basic facts about the gcd loop and reduction -/

theorem gcdLoop_eq_gcd (fuel : Nat) :
    ∀ X Y : Nat, Y < fuel → Exact.gcdLoop fuel X Y = Nat.gcd X Y := by
  induction fuel with
  | zero => intro X Y h; omega
  | succ n ih =>
    intro X Y h
    rw [Exact.gcdLoop]
    by_cases hY : Y = 0
    · simp [hY]
    · simp only [hY, if_false]
      have hYpos : 0 < Y := Nat.pos_of_ne_zero hY
      have hstep : Nat.gcd X Y = Nat.gcd (X % Y) Y := by
        rw [Nat.gcd_comm X Y, Nat.gcd_rec Y X]
      by_cases hX1 : X % Y = 0
      · simp [hX1, hstep, Nat.gcd_comm, Nat.gcd_zero_left]
      · simp only [hX1, if_false]
        have hX1pos : 0 < X % Y := Nat.pos_of_ne_zero hX1
        have hlt : X % Y < Y := Nat.mod_lt _ hYpos
        have hlt2 : Y % (X % Y) < n := by
          have := Nat.mod_lt Y hX1pos
          omega
        rw [ih _ _ hlt2, hstep, Nat.gcd_rec (X % Y) Y]
        exact Nat.gcd_comm _ _

theorem Exact.gcd_eq_gcd (X Y : Nat) : Exact.gcd X Y = Nat.gcd X Y := by
  rw [Exact.gcd]
  by_cases h : X < Y
  · simp only [h, if_true]
    rw [gcdLoop_eq_gcd (X + 1) Y X (by omega), Nat.gcd_comm]
  · simp only [h, if_false]
    exact gcdLoop_eq_gcd (Y + 1) X Y (by omega)

theorem Exact.Abs_eq_natAbs (X : Int) : Exact.Abs X = (X.natAbs : Int) := by
  rw [Exact.Abs]
  rcases le_or_lt 0 X with h | h
  · simp [not_lt.mpr h, Int.natAbs_of_nonneg h]
  · simp [h, Int.ofNat_natAbs_of_nonpos (le_of_lt h)]

/-- An `Exact` value is in reduced form when its denominator is positive
and the absolute numerator is coprime to the denominator. -/
def Exact.reducedForm (e : Exact) : Prop :=
  0 < e.den ∧ Nat.gcd e.num.natAbs e.den.natAbs = 1

/-- Dividing a numerator/denominator pair by their gcd yields a reduced
pair: the core fact behind the reduction invariant. -/
theorem reduce_core (n d : Int) (hd : 0 < d) :
    0 < d.tdiv ((Exact.gcd n.natAbs d.natAbs : Nat) : Int) ∧
      Nat.gcd (n.tdiv ((Exact.gcd n.natAbs d.natAbs : Nat) : Int)).natAbs
        (d.tdiv ((Exact.gcd n.natAbs d.natAbs : Nat) : Int)).natAbs = 1 := by
  rw [Exact.gcd_eq_gcd]
  set g : Nat := Nat.gcd n.natAbs d.natAbs with hg
  have hdpos : 0 < d.natAbs := by
    rw [Int.natAbs_pos]; omega
  have hgpos : 0 < g := Nat.gcd_pos_of_pos_right _ hdpos
  have hgz : (g : Int) ≠ 0 := by exact_mod_cast hgpos.ne'
  have hdvd_n : (g : Int) ∣ n :=
    Int.dvd_natAbs.mp (Int.natCast_dvd_natCast.mpr (Nat.gcd_dvd_left _ _))
  have hdvd_d : (g : Int) ∣ d :=
    Int.dvd_natAbs.mp (Int.natCast_dvd_natCast.mpr (Nat.gcd_dvd_right _ _))
  obtain ⟨m, hm⟩ := hdvd_n
  obtain ⟨c, hc⟩ := hdvd_d
  have hnt : n.tdiv (g : Int) = m := by rw [hm, Int.mul_tdiv_cancel_left _ hgz]
  have hdt : d.tdiv (g : Int) = c := by rw [hc, Int.mul_tdiv_cancel_left _ hgz]
  have hcpos : 0 < c := by nlinarith [hc, hd, hgpos]
  have hmabs : n.natAbs = g * m.natAbs := by
    rw [hm, Int.natAbs_mul, Int.natAbs_ofNat]
  have hcabs : d.natAbs = g * c.natAbs := by
    rw [hc, Int.natAbs_mul, Int.natAbs_ofNat]
  have hmdiv : m.natAbs = n.natAbs / g := by
    rw [hmabs, Nat.mul_div_cancel_left _ hgpos]
  have hcdiv : c.natAbs = d.natAbs / g := by
    rw [hcabs, Nat.mul_div_cancel_left _ hgpos]
  refine ⟨by rw [hdt]; exact hcpos, ?_⟩
  rw [hnt, hdt, hmdiv, hcdiv, hg]
  exact Nat.coprime_div_gcd_div_gcd hgpos


/-! ### Rational value of a fraction, and canonicity of reduced forms -/

/-- The rational number represented by a numerator/denominator pair. -/
def fracVal (n d : Int) : Rat := (n : Rat) / (d : Rat)

theorem fracVal_reduce (n d : Int) (hd : 0 < d) :
    fracVal (n.tdiv ((Exact.gcd n.natAbs d.natAbs : Nat) : Int))
        (d.tdiv ((Exact.gcd n.natAbs d.natAbs : Nat) : Int)) =
      fracVal n d := by
  rw [Exact.gcd_eq_gcd]
  set g : Nat := Nat.gcd n.natAbs d.natAbs with hg
  have hdpos : 0 < d.natAbs := by rw [Int.natAbs_pos]; omega
  have hgpos : 0 < g := Nat.gcd_pos_of_pos_right _ hdpos
  have hgz : (g : Int) ≠ 0 := by exact_mod_cast hgpos.ne'
  have hdvd_n : (g : Int) ∣ n :=
    Int.dvd_natAbs.mp (Int.natCast_dvd_natCast.mpr (Nat.gcd_dvd_left _ _))
  have hdvd_d : (g : Int) ∣ d :=
    Int.dvd_natAbs.mp (Int.natCast_dvd_natCast.mpr (Nat.gcd_dvd_right _ _))
  obtain ⟨m, hm⟩ := hdvd_n
  obtain ⟨c, hc⟩ := hdvd_d
  have hnt : n.tdiv (g : Int) = m := by rw [hm, Int.mul_tdiv_cancel_left _ hgz]
  have hdt : d.tdiv (g : Int) = c := by rw [hc, Int.mul_tdiv_cancel_left _ hgz]
  have hgq : ((g : Int) : Rat) ≠ 0 := by exact_mod_cast hgz
  rw [hnt, hdt, hm, hc, fracVal, fracVal]
  push_cast
  rw [mul_div_mul_left _ _ (by exact_mod_cast hgz)]

/-- Two reduced fractions with positive denominators representing the same
rational number are identical. -/
theorem reduced_unique (n1 d1 n2 d2 : Int) (h1 : 0 < d1) (h2 : 0 < d2)
    (hr1 : Nat.gcd n1.natAbs d1.natAbs = 1)
    (hr2 : Nat.gcd n2.natAbs d2.natAbs = 1)
    (hv : fracVal n1 d1 = fracVal n2 d2) : n1 = n2 ∧ d1 = d2 := by
  have hd1q : ((d1 : Rat)) ≠ 0 := by exact_mod_cast h1.ne'
  have hd2q : ((d2 : Rat)) ≠ 0 := by exact_mod_cast h2.ne'
  rw [fracVal, fracVal, div_eq_div_iff hd1q hd2q] at hv
  have hcross : n1 * d2 = n2 * d1 := by exact_mod_cast hv
  have habs : n1.natAbs * d2.natAbs = n2.natAbs * d1.natAbs := by
    rw [← Int.natAbs_mul, ← Int.natAbs_mul, hcross]
  have hco1 : Nat.Coprime d1.natAbs n1.natAbs := (Nat.coprime_comm.mp hr1)
  have hco2 : Nat.Coprime d2.natAbs n2.natAbs := (Nat.coprime_comm.mp hr2)
  have hdvd1 : d1.natAbs ∣ n1.natAbs * d2.natAbs := by
    rw [habs]; exact dvd_mul_left _ _
  have hdvd12 : d1.natAbs ∣ d2.natAbs := hco1.dvd_of_dvd_mul_left hdvd1
  have hdvd2 : d2.natAbs ∣ n2.natAbs * d1.natAbs := by
    rw [← habs]; exact dvd_mul_left _ _
  have hdvd21 : d2.natAbs ∣ d1.natAbs := hco2.dvd_of_dvd_mul_left hdvd2
  have hdabs : d1.natAbs = d2.natAbs := Nat.dvd_antisymm hdvd12 hdvd21
  have hd : d1 = d2 := by
    have e1 : d1 = (d1.natAbs : Int) := (Int.natAbs_of_nonneg h1.le).symm
    have e2 : d2 = (d2.natAbs : Int) := (Int.natAbs_of_nonneg h2.le).symm
    rw [e1, e2, hdabs]
  refine ⟨?_, hd⟩
  have : n1 * d2 = n2 * d2 := by rw [hcross, hd]
  exact mul_right_cancel₀ (by exact_mod_cast hd2q) this

/-! ### The reduction invariant (claim C4) -/

theorem plus_reducedForm (a b : Exact) (ha : 0 < a.den) (hb : 0 < b.den) :
    (a.plus b).reducedForm := by
  have := reduce_core (a.num * b.den + a.den * b.num) (a.den * b.den)
    (mul_pos ha hb)
  simpa [Exact.plus, Exact.reducedForm] using this

theorem minus_reducedForm (a b : Exact) (ha : 0 < a.den) (hb : 0 < b.den) :
    (a.minus b).reducedForm := by
  have := reduce_core (a.num * b.den - a.den * b.num) (a.den * b.den)
    (mul_pos ha hb)
  simpa [Exact.minus, Exact.reducedForm] using this

theorem times_gcd_ne_zero (a b : Exact) (ha : 0 < a.den) (hb : 0 < b.den) :
    ((Exact.gcd (a.num * b.num).natAbs (a.den * b.den).natAbs : Nat) : Int)
      ≠ 0 := by
  rw [Exact.gcd_eq_gcd]
  have hdpos : 0 < (a.den * b.den).natAbs := by
    rw [Int.natAbs_pos]; exact (mul_pos ha hb).ne'
  have := Nat.gcd_pos_of_pos_right (a.num * b.num).natAbs hdpos
  exact_mod_cast this.ne'

theorem times_reducedForm (a b : Exact) (ha : 0 < a.den) (hb : 0 < b.den) :
    (a.times b).reducedForm := by
  have hnz := times_gcd_ne_zero a b ha hb
  have := reduce_core (a.num * b.num) (a.den * b.den) (mul_pos ha hb)
  simp only [Exact.times, hnz, if_false]
  simpa [Exact.reducedForm] using this

theorem over_reducedForm (a b : Exact) (ha : 0 < a.den) (r : Exact)
    (hr : a.over b = some r) : r.reducedForm := by
  rw [Exact.over] at hr
  by_cases hb : b.num = 0
  · simp [hb] at hr
  · simp only [hb, if_false, Option.some.injEq] at hr
    have hden : a.den * b.num ≠ 0 := mul_ne_zero ha.ne' hb
    have habs : Exact.Abs (a.den * b.num) = ((a.den * b.num).natAbs : Int) :=
      Exact.Abs_eq_natAbs _
    have habspos : 0 < Exact.Abs (a.den * b.num) := by
      rw [habs]
      exact_mod_cast Int.natAbs_pos.mpr hden
    have hgeq :
        (Exact.Abs (a.num * b.den)).natAbs = (a.num * b.den).natAbs := by
      rw [Exact.Abs_eq_natAbs, Int.natAbs_ofNat]
    -- the numerator's sign factor does not change the absolute value
    have hfac :
        ((if a.den * b.num < 0 then (-1 : Int) else 1) * (a.num * b.den)).natAbs
          = (a.num * b.den).natAbs := by
      by_cases hs : a.den * b.num < 0 <;> simp [hs]
    have hcore := reduce_core
      ((if a.den * b.num < 0 then (-1 : Int) else 1) * (a.num * b.den))
      (Exact.Abs (a.den * b.num)) habspos
    rw [hfac] at hcore
    have habs2 : (Exact.Abs (a.den * b.num)).natAbs = (a.den * b.num).natAbs := by
      rw [habs, Int.natAbs_ofNat]
    rw [habs2] at hcore
    rw [← hr]
    simp only [Exact.reducedForm]
    rw [hgeq]
    rw [habs2]
    exact hcore

/-- Claim C4: every `Exact` value returned by `plus`, `minus`, `times` or
`over` is in reduced form: positive denominator, and the absolute
numerator coprime to the denominator.  The hypotheses state that the
operands themselves have positive denominators, which holds for every
`Exact` the program ever builds. -/
theorem c4_reduction_invariant (a b : Exact) (ha : 0 < a.den)
    (hb : 0 < b.den) :
    (a.plus b).reducedForm ∧ (a.minus b).reducedForm ∧
      (a.times b).reducedForm ∧
      ∀ r : Exact, a.over b = some r → r.reducedForm :=
  ⟨plus_reducedForm a b ha hb, minus_reducedForm a b ha hb,
    times_reducedForm a b ha hb, fun r hr => over_reducedForm a b ha r hr⟩

/-- Witness for C4 at a concrete input. -/
theorem c4_reduction_invariant_witness :
    (Exact.plus ⟨2, 3, 1⟩ ⟨-4, 6, 1⟩).reducedForm ∧
      (Exact.minus ⟨2, 3, 1⟩ ⟨-4, 6, 1⟩).reducedForm ∧
      (Exact.times ⟨2, 3, 1⟩ ⟨-4, 6, 1⟩).reducedForm ∧
      ∀ r : Exact, Exact.over ⟨2, 3, 1⟩ ⟨-4, 6, 1⟩ = some r →
        r.reducedForm :=
  c4_reduction_invariant ⟨2, 3, 1⟩ ⟨-4, 6, 1⟩ (by decide) (by decide)

/-! ### The multiply/divide round trip (claim C5) -/

theorem fracVal_sign_abs (Num Den : Int) (hden : Den ≠ 0) :
    fracVal ((if Den < 0 then (-1 : Int) else 1) * Num) (Exact.Abs Den) =
      fracVal Num Den := by
  by_cases hs : Den < 0
  · simp only [hs, if_true, Exact.Abs]
    rw [fracVal, fracVal]
    push_cast
    rw [neg_one_mul, neg_div_neg_eq]
  · simp only [hs, if_false, Exact.Abs]
    rw [one_mul]

/-- Claim C5: multiplying by `b` and dividing by `b` again returns the
original value `a` exactly, so the displayed forms agree.  The hypotheses
on `a` are the `Exact` well-formedness invariant (positive denominator,
reduced, no root marker); `b` only needs a positive denominator and a
nonzero numerator. -/
theorem c5_mul_div_roundtrip (a b : Exact) (haden : 0 < a.den)
    (hared : Nat.gcd a.num.natAbs a.den.natAbs = 1) (haroot : a.root = 1)
    (hbden : 0 < b.den) (hbnum : b.num ≠ 0) :
    ∃ q : Exact, (a.times b).over b = some q ∧ q.display = a.display := by
  have hnz := times_gcd_ne_zero a b haden hbden
  set G : Int :=
    ((Exact.gcd (a.num * b.num).natAbs (a.den * b.den).natAbs : Nat) : Int)
    with hG
  have hm : a.times b = ⟨(a.num * b.num).tdiv G, (a.den * b.den).tdiv G, 1⟩ := by
    simp only [Exact.times, hG, hnz, if_false]
  set m : Exact := a.times b with hmdef
  have hmred : m.reducedForm := times_reducedForm a b haden hbden
  have hmden : 0 < m.den := hmred.1
  have hmval : fracVal m.num m.den = fracVal a.num a.den * fracVal b.num b.den := by
    rw [hm]
    have := fracVal_reduce (a.num * b.num) (a.den * b.den) (mul_pos haden hbden)
    rw [this]
    rw [fracVal, fracVal, fracVal]
    push_cast
    rw [div_mul_div_comm]
  -- unfold the division
  set Num2 : Int := m.num * b.den with hNum2
  set Den2 : Int := m.den * b.num with hDen2
  have hden2 : Den2 ≠ 0 := mul_ne_zero hmden.ne' hbnum
  have habspos : 0 < Exact.Abs Den2 := by
    rw [Exact.Abs_eq_natAbs]
    exact_mod_cast Int.natAbs_pos.mpr hden2
  set F : Int := (if Den2 < 0 then (-1 : Int) else 1) with hF
  set G2 : Int :=
    ((Exact.gcd (Exact.Abs Num2).natAbs (Exact.Abs Den2).natAbs : Nat) : Int)
    with hG2
  have hq : m.over b = some ⟨(F * Num2).tdiv G2, (Exact.Abs Den2).tdiv G2, 1⟩ := by
    simp only [Exact.over, hbnum, if_false, hNum2, hDen2, hF, hG2]
  set qq : Exact := ⟨(F * Num2).tdiv G2, (Exact.Abs Den2).tdiv G2, 1⟩ with hqq
  have hqred : qq.reducedForm := over_reducedForm m b hmden qq hq
  -- the gcd used by `over` matches the one in `fracVal_reduce`
  have hgmatch : G2 =
      ((Exact.gcd (F * Num2).natAbs (Exact.Abs Den2).natAbs : Nat) : Int) := by
    have h1 : (Exact.Abs Num2).natAbs = Num2.natAbs := by
      rw [Exact.Abs_eq_natAbs, Int.natAbs_ofNat]
    have h2 : (F * Num2).natAbs = Num2.natAbs := by
      by_cases hs : Den2 < 0 <;> simp [hF, hs]
    rw [hG2, h1, h2]
  have hqval : fracVal qq.num qq.den = fracVal a.num a.den := by
    have step1 : fracVal qq.num qq.den = fracVal (F * Num2) (Exact.Abs Den2) := by
      rw [hqq]
      simp only []
      rw [hgmatch]
      exact fracVal_reduce (F * Num2) (Exact.Abs Den2) habspos
    have step2 : fracVal (F * Num2) (Exact.Abs Den2) = fracVal Num2 Den2 := by
      rw [hF]
      exact fracVal_sign_abs Num2 Den2 hden2
    have haq : ((a.den : Rat)) ≠ 0 := by exact_mod_cast haden.ne'
    have hbq : ((b.den : Rat)) ≠ 0 := by exact_mod_cast hbden.ne'
    have hbnq : ((b.num : Rat)) ≠ 0 := by exact_mod_cast hbnum
    have hmq : ((m.den : Rat)) ≠ 0 := by exact_mod_cast hmden.ne'
    have hcross : (m.num : Rat) * (a.den * b.den) = a.num * b.num * m.den := by
      have := hmval
      rw [fracVal, fracVal, fracVal] at this
      field_simp at this
      linarith [this]
    have step3 : fracVal Num2 Den2 = fracVal a.num a.den := by
      rw [hNum2, hDen2, fracVal, fracVal]
      push_cast
      rw [div_eq_div_iff (by exact mul_ne_zero hmq hbnq) haq]
      nlinarith [hcross]
    rw [step1, step2, step3]
  obtain ⟨hnum, hden⟩ := reduced_unique qq.num qq.den a.num a.den
    hqred.1 haden hqred.2 hared hqval
  have hqa : qq = a := by
    obtain ⟨an, ad, ar⟩ := a
    simp only at hnum hden haroot
    rw [hqq]
    simp only [Exact.mk.injEq]
    exact ⟨hnum, hden, haroot.symm⟩
  exact ⟨qq, hq, by rw [hqa]⟩

/-- Witness for C5 at a concrete input. -/
theorem c5_mul_div_roundtrip_witness :
    ∃ q : Exact,
      (Exact.times ⟨2, 3, 1⟩ ⟨-5, 4, 1⟩).over ⟨-5, 4, 1⟩ = some q ∧
        q.display = Exact.display ⟨2, 3, 1⟩ :=
  c5_mul_div_roundtrip ⟨2, 3, 1⟩ ⟨-5, 4, 1⟩ (by decide) (by decide)
    (by decide) (by decide) (by decide)

/-! ### Exponentiation guards (claims C6, C7, C9) -/

/-- Claim C6: `toThe` fails with the overflow flag immediately when the
exponent magnitude exceeds 100; the accumulation loop fails with the
overflow flag as soon as a multiplication step pushes the decimal-length
difference of numerator and denominator past 20; raising 9 to the 6th
succeeds with 531441; and raising 69 to the 69th overflows. -/
theorem c6_exponent_guards :
    (∀ a b : Exact, b.root = 1 → 100 < b.num.natAbs →
      a.toThe b = .overflow) ∧
    (∀ This Res : Exact, ∀ k : Nat,
      20 < ((BigIntLog10 (Res.times This).num : Int) -
          (BigIntLog10 (Res.times This).den : Int)).natAbs →
      Exact.powLoop This (k + 1) Res = none) ∧
    Exact.toThe ⟨9, 1, 1⟩ ⟨6, 1, 1⟩ = .ok ⟨531441, 1, 1⟩ ∧
    Exact.toThe ⟨69, 1, 1⟩ ⟨69, 1, 1⟩ = .overflow := by
  refine ⟨?_, ?_, by decide, by decide⟩
  · intro a b hroot h100
    rw [Exact.toThe]
    simp [hroot, h100]
  · intro This Res k h
    rw [Exact.powLoop]
    simp only [h, if_true]

/-- Witness for the hypothesis-bearing parts of C6. -/
theorem c6_exponent_guards_witness :
    Exact.toThe ⟨2, 1, 1⟩ ⟨101, 1, 1⟩ = .overflow ∧
      Exact.powLoop ⟨10, 1, 1⟩ 3 ⟨1000000000000000000000000000000, 1, 1⟩ =
        none :=
  ⟨c6_exponent_guards.1 ⟨2, 1, 1⟩ ⟨101, 1, 1⟩ (by decide) (by decide),
    c6_exponent_guards.2.1 ⟨10, 1, 1⟩ ⟨1000000000000000000000000000000, 1, 1⟩
      2 (by decide)⟩

/-- Counterexample to claim C7: the exponent `1/2` (numerator 1,
denominator 2, root 1) is not an integer — its display is the float
marker — yet `toThe` does not refuse it with an error; it returns the base
tagged with root 2.  Only a root marker different from 1 is refused. -/
theorem c7_counterexample_fractional_exponent_accepted :
    Exact.display ⟨1, 2, 1⟩ = none ∧
      Exact.toThe ⟨2, 1, 1⟩ ⟨1, 2, 1⟩ = .ok ⟨2, 1, 2⟩ := by
  constructor
  · rw [Exact.display]; simp
  · decide

/-- Amended claim C7: `toThe` is refused with the error flag precisely for
exponents whose root marker differs from 1; such candidates are then
discarded by the engine (an `error` evaluation is never retained). -/
theorem c7_root_marker_refused (a b : Exact) (h : b.root ≠ 1) :
    a.toThe b = .error := by
  rw [Exact.toThe]
  simp [h]

/-- Witness for the amended C7. -/
theorem c7_root_marker_refused_witness :
    Exact.toThe ⟨2, 1, 1⟩ ⟨1, 1, 2⟩ = .error :=
  c7_root_marker_refused ⟨2, 1, 1⟩ ⟨1, 1, 2⟩ (by decide)

/-- Claim C9: with the zero exponent (numerator 0, denominator 1, root 1),
the loop performs no multiplication (`for i = 1; i < 0` runs zero times)
and `toThe` returns the base's numerator and denominator unchanged — not
the value 1.  The hypothesis is the reduction invariant every program
`Exact` satisfies; without it the final gcd pass would alter the fields. -/
theorem c9_power_zero_returns_base (a : Exact)
    (h : Exact.gcd a.num.natAbs a.den.natAbs = 1) :
    Exact.toThe a ⟨0, 1, 1⟩ = .ok ⟨a.num, a.den, 1⟩ := by
  have habs : (Exact.Abs a.num).natAbs = a.num.natAbs := by
    rw [Exact.Abs_eq_natAbs, Int.natAbs_ofNat]
  rw [Exact.toThe]
  simp only [ne_eq, not_true_eq_false, if_false, ite_false]
  norm_num
  rw [Exact.powLoop]
  simp only [habs, h]
  norm_num

/-! ### Terms: the `Atom2`/`Expression2` model -/

/-- Fuel-based floor of the base-10 logarithm
(`Math.floor(Math.log10(abs))` in `Atom2`'s constructor), exact for the
positive integers the program feeds it. -/
def log10Aux : Nat → Nat → Nat
  | 0, _ => 0
  | fuel + 1, n => if 10 ≤ n then log10Aux fuel (n / 10) + 1 else 0

/-- `Atom2.start`: the leading decimal digit of the magnitude
(`Math.floor(abs / 10 ** pow)`). -/
def startDigit (v : Int) : Nat := v.natAbs / 10 ^ log10Aux v.natAbs v.natAbs

/-- `Atom2.end`: the last decimal digit of the magnitude (`abs % 10`). -/
def endDigit (v : Int) : Nat := v.natAbs % 10

/-- The five operator tags of `Expression2.Operations`, in the key order
of the source object literal. -/
inductive Op where
  | plus
  | minus
  | times
  | div
  | pow
deriving DecidableEq, Repr

/-- The operator's display token. -/
def opStr : Op → String
  | .plus => "+"
  | .minus => "-"
  | .times => "*"
  | .div => "/"
  | .pow => "**"

/-- A term is an `Atom2` (a literal value) or an `Expression2`
(a left term, an operator, and a right term). -/
inductive Term where
  | atom (value : Int)
  | comp (left : Term) (op : Op) (right : Term)
deriving DecidableEq, Repr

namespace Term

/-- `this.start`: an atom computes its leading digit; an expression copies
its left term's start. -/
def start : Term → Nat
  | .atom v => startDigit v
  | .comp l _ _ => l.start

/-- `this.end`: an atom computes its last digit; an expression copies its
right term's end. -/
def end_ : Term → Nat
  | .atom v => endDigit v
  | .comp _ _ r => r.end_

/-- `this.complete = this.start === 6 && this.end === 9`, computed by the
`Expression2` constructor only: an `Atom2` has no `complete` property, so
reading it yields a falsy value. -/
def complete : Term → Bool
  | .atom _ => false
  | .comp l _ r => l.start == 6 && r.end_ == 9

/-- Dispatch through `Expression2.Operations`. -/
def applyOp : Op → Exact → Exact → EResult
  | .plus, a, b => .ok (a.plus b)
  | .minus, a, b => .ok (a.minus b)
  | .times, a, b => .ok (a.times b)
  | .div, a, b =>
    match a.over b with
    | some r => .ok r
    | none => .error
  | .pow, a, b => a.toThe b

/-- `get evaluate`: recursively evaluate both sides and apply the
operator.  An atom evaluates to `new Exact(value)`.  (A flagged subterm
would crash the JavaScript getter; the engine only ever evaluates terms
whose subterms evaluated cleanly, so the `error` result in that case is
unreachable.) -/
def evaluate : Term → EResult
  | .atom v => .ok ⟨v, 1, 1⟩
  | .comp l op r =>
    match l.evaluate, r.evaluate with
    | .ok a, .ok b => applyOp op a b
    | _, _ => .error

/-- `get display`: an atom displays its exact value; an expression wraps
its children around the operator token. -/
def displayStr : Term → String
  | .atom v => ((Exact.mk v 1 1).display).getD (String.mk [])
  | .comp l op r =>
    String.mk (['('] ++ (l.displayStr).data ++ [' '] ++ (opStr op).data ++
      [' '] ++ (r.displayStr).data ++ [')'])

/-- Number of operations in a term (the spec's `p|k` cost measure: atoms
cost 0, a composition adds one operation to the costs of its parts). -/
def opCount : Term → Nat
  | .atom _ => 0
  | .comp l _ r => l.opCount + r.opCount + 1

end Term

/-! ### JavaScript object tables and their enumeration order -/

/-- A JavaScript object used as a table: an insertion-ordered association
list.  Assignment to an existing key replaces the value in place;
assignment to a fresh key appends. -/
def tableSet {β : Type} (tbl : List (String × β)) (key : String) (v : β) :
    List (String × β) :=
  if tbl.any (fun p => p.1 == key) then
    tbl.map (fun p => if p.1 = key then (key, v) else p)
  else tbl ++ [(key, v)]

/-- Property lookup. -/
def tableGet {β : Type} : List (String × β) → String → Option β
  | [], _ => none
  | p :: rest, s => if p.1 = s then some p.2 else tableGet rest s

/-- Value of a digit run, used to recognize array-index keys. -/
def digitsVal : List Char → Nat → Option Nat
  | [], acc => some acc
  | c :: cs, acc =>
    if 48 ≤ c.toNat ∧ c.toNat ≤ 57 then
      digitsVal cs (acc * 10 + (c.toNat - 48))
    else none

/-- A JavaScript array-index key: a canonical decimal string (no sign, no
leading zero) whose value is at most 2^32 - 2.  Such keys enumerate
before all other keys, in ascending numeric order. -/
def arrayIndexVal (s : String) : Option Nat :=
  match s.data with
  | [] => none
  | c :: cs =>
    if c = '0' then (if cs.isEmpty then some 0 else none)
    else
      match digitsVal (c :: cs) 0 with
      | some v => if v ≤ 4294967294 then some v else none
      | none => none

/-- Insertion step of the sort producing the array-index section of the
enumeration order. -/
def insertByVal {β : Type} (p : String × β) :
    List (String × β) → List (String × β)
  | [] => [p]
  | q :: qs =>
    if (arrayIndexVal p.1).getD 0 ≤ (arrayIndexVal q.1).getD 0 then
      p :: q :: qs
    else q :: insertByVal p qs

/-- Sort by array-index value (all keys in the sorted section are
array-index keys, and keys are distinct, so the order is the JavaScript
one). -/
def sortByVal {β : Type} : List (String × β) → List (String × β)
  | [] => []
  | p :: ps => insertByVal p (sortByVal ps)

/-- `for...in` enumeration order of an object: array-index keys in
ascending numeric order first, then the remaining keys in insertion
order. -/
def tableIter {β : Type} (tbl : List (String × β)) : List (String × β) :=
  sortByVal (tbl.filter fun p => (arrayIndexVal p.1).isSome) ++
    tbl.filter (fun p => (arrayIndexVal p.1).isNone)

/-! ### The version-3 enumeration engine -/

/-- The engine's mutable state: the `knownNumbers` array and the `List`
of per-level tables. -/
structure EngineState where
  knownNumbers : List String
  levels : List (List (String × Term))
deriving DecidableEq, Repr

/-- `Object.keys(Expression2.Operations).filter(op => op !== '**')`: the
power operator is filtered out in version 3. -/
def OperationList : List Op := [.plus, .minus, .times, .div]

/-- Level 0: the six atoms keyed by their decimal strings, in the source's
insertion order. -/
def initTable : List (String × Term) :=
  [("-6", Term.atom (-6)), ("6", Term.atom 6), ("-9", Term.atom (-9)),
    ("9", Term.atom 9), ("69", Term.atom 69), ("-69", Term.atom (-69))]

/-- Initial engine state: `knownNumbers = ['69', '-69']` and the level-0
table. -/
def initState : EngineState := ⟨["69", "-69"], [initTable]⟩

/-- The JavaScript assignment `List[operations][key] = expr`. -/
def stInsert (st : EngineState) (k : Nat) (key : String) (t : Term) :
    EngineState :=
  let tbl := tableSet (st.levels.getD k []) key t
  { st with levels := st.levels.set k tbl }

/-- The JavaScript `knownNumbers.push(Display)`. -/
def stPush (st : EngineState) (d : String) : EngineState :=
  { st with knownNumbers := st.knownNumbers ++ [d] }

/-- The body of the innermost loop: adjacency check, construction,
evaluation, flag check, and retention.  `k` is the current `operations`
level, `N` the budget, `fc` the running `floatCounter`. -/
def processOp (N k : Nat) (L R : Term) (op : Op) (st : EngineState)
    (fc : Nat) : EngineState :=
  if L.end_ ≠ R.start then
    let newExpression := Term.comp L op R
    match newExpression.evaluate with
    | .ok v =>
      match v.display with
      | none =>
        if k < N then
          stInsert st k (String.append ("float") (Nat.repr fc)) newExpression
        else st
      | some d =>
        if d ∉ st.knownNumbers ∧ d.length < 20 then
          let st1 :=
            if newExpression.complete ∨ k < N then
              stInsert st k d newExpression
            else st
          if newExpression.complete then stPush st1 d else st1
        else st
    | _ => st
  else st

/-- The operator loop.  When `ignoreSumAndMul` holds and the operator is
`+` or `*`, the source executes `break`, abandoning the whole loop; the
`floatCounter` advances once per completed iteration. -/
def opLoop (N k : Nat) (ig : Bool) (L R : Term) :
    List Op → EngineState → Nat → EngineState × Nat
  | [], st, fc => (st, fc)
  | op :: rest, st, fc =>
    if ig ∧ (op = .plus ∨ op = .times) then (st, fc)
    else opLoop N k ig L R rest (processOp N k L R op st fc) (fc + 1)

/-- Loop over the right table's entries in enumeration order. -/
def rightLoop (N k : Nat) (ig : Bool) (L : Term)
    (rights : List (String × Term)) (acc : EngineState × Nat) :
    EngineState × Nat :=
  rights.foldl (fun a p => opLoop N k ig L p.2 OperationList a.1 a.2) acc

/-- Loop over the left table's entries in enumeration order. -/
def leftLoop (N k : Nat) (ig : Bool) (lefts rights : List (String × Term))
    (acc : EngineState × Nat) : EngineState × Nat :=
  lefts.foldl (fun a p => rightLoop N k ig p.2 rights a) acc

/-- Process one composition `(i, j)`: the operand tables are the frozen
levels `i` and `j`, `ignoreSumAndMul = (i < j)`, and the `floatCounter`
restarts at 0. -/
def compStep (N k : Nat) (st : EngineState) (c : Nat × Nat) : EngineState :=
  let LeftNumbers := st.levels.getD c.1 []
  let RightNumbers := st.levels.getD c.2 []
  let ig : Bool := decide (c.1 < c.2)
  (leftLoop N k ig (tableIter LeftNumbers) (tableIter RightNumbers)
    (st, 0)).1

/-- `compositionPair(Num)`: the pairs `(i, Num - i)` for `i` descending
from `Num` to 0. -/
def compositionPair (num : Nat) : List (Nat × Nat) :=
  (List.range (num + 1)).map (fun t => (num - t, t))

/-- Build level `k`: create the fresh `List[operations] = {}` table, then
fold over the compositions of `k - 1`. -/
def levelStep (N : Nat) (st : EngineState) (k : Nat) : EngineState :=
  let st1 : EngineState := { st with levels := st.levels ++ [[]] }
  (compositionPair (k - 1)).foldl (compStep N k) st1

/-- Run the engine: levels 1 through `m` under budget `N`. -/
def runAux (N m : Nat) : EngineState :=
  (List.range m).foldl (fun st i => levelStep N st (i + 1)) initState

/-- `getExpression_version3(N)`: the engine state after all `N` levels.
(For `N = 0` the source returns the raw `List` before projecting; the
state's `levels` field is that list.) -/
def getExpression_version3 (N : Nat) : EngineState := runAux N N

/-- The result projector applied to one level: keep the entries whose
term is complete (and whose display string is truthy, i.e. nonempty), in
enumeration order. -/
def projTable (tbl : List (String × Term)) : List (String × String) :=
  (tableIter tbl).foldl
    (fun obj p =>
      if p.2.complete ∧ p.2.displayStr ≠ (String.mk []) then
        tableSet obj p.1 p.2.displayStr
      else obj)
    []

/-- The result projector (`DisplayList`): one projected table per level. -/
def project (levels : List (List (String × Term))) :
    List (List (String × String)) :=
  levels.map projTable

/-! ### List and table helper lemmas -/

theorem getD_out_of_range {α : Type} (l : List α) (d : α) :
    ∀ i, l.length ≤ i → l.getD i d = d := by
  induction l with
  | nil => intro i _; cases i <;> rfl
  | cons x xs ih =>
    intro i h
    cases i with
    | zero => simp at h
    | succ j => simpa using ih j (by simpa using h)

theorem getD_append_lt {α : Type} (l l' : List α) (d : α) :
    ∀ i, i < l.length → (l ++ l').getD i d = l.getD i d := by
  induction l with
  | nil => intro i h; simp at h
  | cons x xs ih =>
    intro i h
    cases i with
    | zero => rfl
    | succ j => simpa using ih _ (by simpa using h)

theorem getD_set_self {α : Type} (l : List α) (x d : α) :
    ∀ k, k < l.length → (l.set k x).getD k d = x := by
  induction l with
  | nil => intro k h; simp at h
  | cons y ys ih =>
    intro k h
    cases k with
    | zero => rfl
    | succ j => simpa using ih j (by simpa using h)

theorem getD_set_ne {α : Type} (l : List α) (x d : α) :
    ∀ i k, i ≠ k → (l.set k x).getD i d = l.getD i d := by
  induction l with
  | nil => intro i k _; rfl
  | cons y ys ih =>
    intro i k h
    cases k with
    | zero => cases i with
      | zero => exact absurd rfl h
      | succ j => rfl
    | succ m => cases i with
      | zero => rfl
      | succ j => simpa using ih j m (by omega)

theorem mem_tableSet {β : Type} (tbl : List (String × β)) (key : String)
    (v : β) (p : String × β) (h : p ∈ tableSet tbl key v) :
    p = (key, v) ∨ (p ∈ tbl ∧ p.1 ≠ key) := by
  rw [tableSet] at h
  by_cases hany : tbl.any (fun q => q.1 == key)
  · rw [if_pos hany] at h
    rw [List.mem_map] at h
    obtain ⟨q, hq, hqe⟩ := h
    by_cases hkey : q.1 = key
    · left; rw [if_pos hkey] at hqe; exact hqe.symm
    · right; rw [if_neg hkey] at hqe; rw [← hqe]; exact ⟨hq, hkey⟩
  · rw [if_neg hany] at h
    rw [List.mem_append] at h
    rcases h with h | h
    · right
      refine ⟨h, ?_⟩
      intro hk
      rw [List.any_eq_true] at hany
      exact hany ⟨p, h, by simp [hk]⟩
    · left; simpa using h

theorem tableGet_mem {β : Type} :
    ∀ (tbl : List (String × β)) (s : String) (t : β),
      tableGet tbl s = some t → (s, t) ∈ tbl := by
  intro tbl
  induction tbl with
  | nil => intro s t h; simp [tableGet] at h
  | cons p rest ih =>
    intro s t h
    rw [tableGet] at h
    by_cases hp : p.1 = s
    · rw [if_pos hp] at h
      injection h with h2
      have hpe : p = (s, t) := by
        obtain ⟨pk, pv⟩ := p
        simp only at hp h2
        rw [hp, h2]
      rw [← hpe]
      exact List.mem_cons_self _ _
    · rw [if_neg hp] at h
      exact List.mem_cons_of_mem _ (ih s t h)

theorem tableGet_eq_none {β : Type} :
    ∀ (tbl : List (String × β)) (s : String),
      (∀ t : β, (s, t) ∉ tbl) → tableGet tbl s = none := by
  intro tbl
  induction tbl with
  | nil => intro s _; rfl
  | cons p rest ih =>
    intro s h
    rw [tableGet]
    by_cases hp : p.1 = s
    · exfalso
      exact h p.2 (by rw [← hp]; exact List.mem_cons_self _ _)
    · rw [if_neg hp]
      exact ih s (fun t ht => h t (List.mem_cons_of_mem _ ht))

theorem tableGet_tableSet_self {β : Type} (tbl : List (String × β))
    (key : String) (v : β) : tableGet (tableSet tbl key v) key = some v := by
  rw [tableSet]
  by_cases hany : tbl.any (fun q => q.1 == key)
  · rw [if_pos hany]
    induction tbl with
    | nil => simp at hany
    | cons p rest ih =>
      simp only [List.map_cons, tableGet]
      by_cases hp : p.1 = key
      · simp [hp, tableGet]
      · rw [if_neg hp]
        simp only [List.any_cons, Bool.or_eq_true] at hany
        rcases hany with hany | hany
        · exfalso; exact hp (by simpa using hany)
        · rw [if_neg hp]
          exact ih hany
  · rw [if_neg hany]
    induction tbl with
    | nil => simp [tableGet]
    | cons p rest ih =>
      simp only [List.any_cons, Bool.or_eq_true, not_or] at hany
      simp only [List.cons_append, tableGet]
      rw [if_neg (by simpa using hany.1)]
      exact ih hany.2

theorem mem_insertByVal {β : Type} (p q : String × β) :
    ∀ l, q ∈ insertByVal p l → q = p ∨ q ∈ l := by
  intro l
  induction l with
  | nil => intro h; simpa [insertByVal] using h
  | cons r rs ih =>
    intro h
    rw [insertByVal] at h
    by_cases hc : (arrayIndexVal p.1).getD 0 ≤ (arrayIndexVal r.1).getD 0
    · rw [if_pos hc] at h
      rcases List.mem_cons.mp h with h1 | h1
      · exact Or.inl h1
      · exact Or.inr h1
    · rw [if_neg hc] at h
      rcases List.mem_cons.mp h with h1 | h1
      · exact Or.inr (by rw [h1]; exact List.mem_cons_self _ _)
      · rcases ih h1 with h2 | h2
        · exact Or.inl h2
        · exact Or.inr (List.mem_cons_of_mem _ h2)

theorem mem_sortByVal {β : Type} (q : String × β) :
    ∀ l, q ∈ sortByVal l → q ∈ l := by
  intro l
  induction l with
  | nil => intro h; simpa [sortByVal] using h
  | cons p ps ih =>
    intro h
    rw [sortByVal] at h
    rcases mem_insertByVal p q _ h with h1 | h1
    · rw [h1]; exact List.mem_cons_self _ _
    · exact List.mem_cons_of_mem _ (ih h1)

theorem mem_tableIter {β : Type} (q : String × β) (tbl : List (String × β))
    (h : q ∈ tableIter tbl) : q ∈ tbl := by
  rw [tableIter, List.mem_append] at h
  rcases h with h | h
  · exact List.mem_of_mem_filter (mem_sortByVal q _ h)
  · exact List.mem_of_mem_filter h

/-! ### Float keys versus decimal display keys -/

/-- The shape of keys produced for non-integer values:
`'float' + floatCounter.toString()`. -/
def FloatKey (s : String) : Prop :=
  ∃ n : Nat, s = String.append ("float") (Nat.repr n)

theorem floatKey_head (s : String) (h : FloatKey s) :
    ∃ l, s.data = 'f' :: l := by
  obtain ⟨n, rfl⟩ := h
  exact ⟨_, rfl⟩

theorem digitChar_ne_f : ∀ d : Nat, d < 10 → digitChar d ≠ 'f' := by decide

theorem natDigitsAux_mem :
    ∀ (fuel n : Nat), ∀ c ∈ natDigitsAux fuel n,
      ∃ d, d < 10 ∧ c = digitChar d := by
  intro fuel
  induction fuel with
  | zero => intro n c hc; simp [natDigitsAux] at hc
  | succ m ih =>
    intro n c hc
    rw [natDigitsAux] at hc
    by_cases hn : n = 0
    · rw [if_pos hn] at hc; simp at hc
    · rw [if_neg hn, List.mem_append] at hc
      rcases hc with hc | hc
      · exact ih _ c hc
      · simp only [List.mem_singleton] at hc
        exact ⟨n % 10, Nat.mod_lt _ (by omega), hc⟩

theorem natDigits_ne_nil (n : Nat) (hn : n ≠ 0) : natDigits n ≠ [] := by
  rw [natDigits]
  cases n with
  | zero => exact absurd rfl hn
  | succ m =>
    rw [natDigitsAux, if_neg hn]
    simp

theorem intStr_head (v : Int) (hv : v ≠ 0) :
    ∃ c l, (intStr v).data = c :: l ∧ c ≠ 'f' := by
  rw [intStr]
  by_cases hneg : v < 0
  · exact ⟨'-', _, by rw [if_pos hneg]; rfl, by decide⟩
  · rw [if_neg hneg]
    have habs : v.natAbs ≠ 0 := by
      intro h0; exact hv (Int.natAbs_eq_zero.mp h0)
    obtain ⟨c, l, hcl⟩ := List.exists_cons_of_ne_nil (natDigits_ne_nil _ habs)
    refine ⟨c, l, by rw [List.nil_append, hcl], ?_⟩
    obtain ⟨d, hd, hcd⟩ := natDigitsAux_mem v.natAbs v.natAbs c
      (by rw [natDigits] at hcl; rw [hcl]; exact List.mem_cons_self _ _)
    rw [hcd]
    exact digitChar_ne_f d hd

theorem display_head (e : Exact) (s : String) (h : e.display = some s) :
    ∃ c l, s.data = c :: l ∧ c ≠ 'f' := by
  rw [Exact.display] at h
  by_cases h1 : e.den ≠ 1 ∨ e.root ≠ 1
  · rw [if_pos h1] at h; cases h
  · rw [if_neg h1] at h
    by_cases h2 : e.num = 0
    · rw [if_pos h2] at h
      injection h with h3
      exact ⟨'0', [], by rw [← h3], by decide⟩
    · rw [if_neg h2] at h
      injection h with h3
      rw [← h3]
      exact intStr_head _ h2

theorem display_not_floatKey (e : Exact) (s : String)
    (h : e.display = some s) : ¬ FloatKey s := by
  intro hf
  obtain ⟨l1, hl1⟩ := floatKey_head s hf
  obtain ⟨c, l2, hl2, hc⟩ := display_head e s h
  rw [hl1] at hl2
  injection hl2 with hh _
  exact hc hh.symm

theorem floatKey_ne_69 (s : String) (h : FloatKey s) :
    s ≠ ("69") ∧ s ≠ ("-69") := by
  obtain ⟨l1, hl1⟩ := floatKey_head s h
  constructor
  · intro he; rw [he] at hl1; cases hl1
  · intro he; rw [he] at hl1; cases hl1

/-! ### The engine invariant -/

/-- The table at level `i` (empty when out of range). -/
def levelsAt (st : EngineState) (i : Nat) : List (String × Term) :=
  st.levels.getD i []

/-- Invariant maintained by the version-3 engine:
* `known69`: the two initial entries of `knownNumbers` stay present;
* `keyed`: every retained entry is float-keyed, or keyed by the decimal
  display of its own evaluation, with complete entries settled in
  `knownNumbers`;
* `settled`: a complete, decimal-keyed entry at one level excludes its key
  from every strictly later level;
* `no69`: no level from 1 on has an entry keyed `69` or `-69`;
* `opCountEq`: an entry at level `i` is a term of exactly `i`
  operations. -/
structure EngineInv (st : EngineState) : Prop where
  known69 : ("69") ∈ st.knownNumbers ∧ ("-69") ∈ st.knownNumbers
  keyed : ∀ i s t, (s, t) ∈ levelsAt st i →
    FloatKey s ∨ ∃ v, t.evaluate = EResult.ok v ∧ v.display = some s ∧
      (t.complete = true → s ∈ st.knownNumbers)
  settled : ∀ i j s t t', i < j → (s, t) ∈ levelsAt st i →
    t.complete = true → ¬ FloatKey s → (s, t') ∈ levelsAt st j → False
  no69 : ∀ i s t, 1 ≤ i → (s, t) ∈ levelsAt st i →
    s ≠ ("69") ∧ s ≠ ("-69")
  opCountEq : ∀ i s t, (s, t) ∈ levelsAt st i → t.opCount = i

theorem stInsert_levels_length (st : EngineState) (k : Nat) (key : String)
    (t : Term) : (stInsert st k key t).levels.length = st.levels.length := by
  simp [stInsert]

theorem stPush_levels (st : EngineState) (d : String) :
    (stPush st d).levels = st.levels := rfl

/-- Replace the `knownNumbers` component of a state. -/
def stWith (newKnown : List String) (st : EngineState) : EngineState :=
  { knownNumbers := newKnown, levels := st.levels }

theorem mem_levelsAt_stInsert (st : EngineState) (k : Nat) (key : String)
    (expr : Term) (hlen : st.levels.length = k + 1) (i : Nat) (s : String)
    (t : Term) (h : (s, t) ∈ levelsAt (stInsert st k key expr) i) :
    (i = k ∧ s = key ∧ t = expr) ∨ (s, t) ∈ levelsAt st i := by
  rw [levelsAt, stInsert] at h
  simp only at h
  by_cases hik : i = k
  · subst hik
    rw [getD_set_self _ _ _ _ (by omega)] at h
    rcases mem_tableSet _ _ _ _ h with h1 | h1
    · left
      obtain ⟨h2, h3⟩ := Prod.mk.injEq .. ▸ congrArg id h1
      exact ⟨rfl, by injection h1, by injection h1⟩
    · right; exact h1.1
  · rw [getD_set_ne _ _ _ _ _ hik] at h
    right; exact h

theorem levelsAt_out_of_range (st : EngineState) (j : Nat)
    (h : st.levels.length ≤ j) : levelsAt st j = [] :=
  getD_out_of_range _ _ _ h

/-- Inserting at the top level `k` under a float key preserves the
invariant. -/
theorem inv_insert_float (st : EngineState) (k : Nat) (key : String)
    (expr : Term) (hInv : EngineInv st) (hlen : st.levels.length = k + 1)
    (hk : 1 ≤ k) (hfk : FloatKey key) (hoc : expr.opCount = k) :
    EngineInv (stInsert st k key expr) := by
  constructor
  · exact hInv.known69
  · intro i s t h
    rcases mem_levelsAt_stInsert st k key expr hlen i s t h with ⟨_, hs, _⟩ | h1
    · left; rw [hs]; exact hfk
    · exact hInv.keyed i s t h1
  · intro i j s t t' hij hmi hc hnf hmj
    rcases mem_levelsAt_stInsert st k key expr hlen i s t hmi with ⟨hik, hs, _⟩ | h1
    · exact hnf (hs ▸ hfk)
    · rcases mem_levelsAt_stInsert st k key expr hlen j s t' hmj with ⟨hjk, hs, _⟩ | h2
      · exact hnf (hs ▸ hfk)
      · exact hInv.settled i j s t t' hij h1 hc hnf h2
  · intro i s t h1 h
    rcases mem_levelsAt_stInsert st k key expr hlen i s t h with ⟨_, hs, _⟩ | h2
    · rw [hs]; exact floatKey_ne_69 key hfk
    · exact hInv.no69 i s t h1 h2
  · intro i s t h
    rcases mem_levelsAt_stInsert st k key expr hlen i s t h with ⟨hik, _, ht⟩ | h2
    · rw [ht, hik]; exact hoc
    · exact hInv.opCountEq i s t h2

/-- Inserting an integer-keyed entry at the top level `k`, together with
an extension of `knownNumbers`, preserves the invariant.  The inserted
key must be the display of the new entry's value and must not be settled
yet; if the entry is complete, the extended `knownNumbers` must contain
the key. -/
theorem inv_insert_int (st : EngineState) (k : Nat) (d : String)
    (expr : Term) (v : Exact) (newKnown : List String) (hInv : EngineInv st)
    (hlen : st.levels.length = k + 1) (hk : 1 ≤ k)
    (hev : expr.evaluate = EResult.ok v) (hdisp : v.display = some d)
    (hnotk : d ∉ st.knownNumbers) (hoc : expr.opCount = k)
    (hsub : ∀ x ∈ st.knownNumbers, x ∈ newKnown)
    (hdin : expr.complete = true → d ∈ newKnown) :
    EngineInv (stWith newKnown (stInsert st k d expr)) := by
  have hnf : ¬ FloatKey d := display_not_floatKey v d hdisp
  constructor
  · exact ⟨hsub _ hInv.known69.1, hsub _ hInv.known69.2⟩
  · intro i s t h
    rcases mem_levelsAt_stInsert st k d expr hlen i s t h with ⟨_, hs, ht⟩ | h1
    · right
      exact ⟨v, by rw [ht]; exact hev, by rw [hs]; exact hdisp,
        fun hc => by rw [hs]; exact hdin (ht ▸ hc)⟩
    · rcases hInv.keyed i s t h1 with h2 | ⟨v', he, hd, hcs⟩
      · exact Or.inl h2
      · exact Or.inr ⟨v', he, hd, fun hc => hsub _ (hcs hc)⟩
  · intro i j s t t' hij hmi hc hnf2 hmj
    rcases mem_levelsAt_stInsert st k d expr hlen j s t' hmj with ⟨hjk, hs, _⟩ | h2
    · -- the new entry would sit above an already complete entry for `d`
      rcases mem_levelsAt_stInsert st k d expr hlen i s t hmi with ⟨hik, _, _⟩ | h1
      · omega
      · rcases hInv.keyed i s t h1 with h3 | ⟨v', _, hd', hcs⟩
        · exact hnf2 h3
        · exact hnotk (hs ▸ hcs hc)
    · rcases mem_levelsAt_stInsert st k d expr hlen i s t hmi with ⟨hik, _, _⟩ | h1
      · -- the new entry is complete at level `k`; nothing exists above `k`
        have : levelsAt st j = [] := levelsAt_out_of_range st j (by omega)
        rw [this] at h2
        cases h2
      · exact hInv.settled i j s t t' hij h1 hc hnf2 h2
  · intro i s t h1 h
    rcases mem_levelsAt_stInsert st k d expr hlen i s t h with ⟨_, hs, _⟩ | h2
    · constructor
      · intro he
        apply hnotk
        rw [← hs, he]
        exact hInv.known69.1
      · intro he
        apply hnotk
        rw [← hs, he]
        exact hInv.known69.2
    · exact hInv.no69 i s t h1 h2
  · intro i s t h
    rcases mem_levelsAt_stInsert st k d expr hlen i s t h with ⟨hik, _, ht⟩ | h2
    · rw [ht, hik]; exact hoc
    · exact hInv.opCountEq i s t h2



/-- `processOp` preserves the invariant when processing operands drawn
from levels whose operation counts sum to `k - 1`. -/
theorem processOp_inv (N k : Nat) (L R : Term) (op : Op) (st : EngineState)
    (fc : Nat) (hInv : EngineInv st) (hlen : st.levels.length = k + 1)
    (hk : 1 ≤ k) (hsum : L.opCount + R.opCount + 1 = k) :
    EngineInv (processOp N k L R op st fc) ∧
      (processOp N k L R op st fc).levels.length = k + 1 := by
  have hoc : (Term.comp L op R).opCount = k := hsum
  simp only [processOp]
  split
  · split
    · -- evaluation returned an exact value
      split
      · -- float display
        split
        · refine ⟨inv_insert_float st k _ _ hInv hlen hk ⟨fc, rfl⟩ hoc, ?_⟩
          rw [stInsert_levels_length]; exact hlen
        · exact ⟨hInv, hlen⟩
      · -- integer display
        split
        · -- fresh and short enough
          split
          · -- complete
            split
            · -- stored and settled
              rename_i v hev x d hdisp hcond hcomp hor
              refine ⟨?_, ?_⟩
              · exact inv_insert_int st k d _ v (st.knownNumbers ++ [d]) hInv
                  hlen hk hev hdisp hcond.1 hoc
                  (fun x hx => List.mem_append_left _ hx)
                  (fun _ => List.mem_append_right _ (List.mem_singleton_self _))
              · rw [stPush_levels, stInsert_levels_length]; exact hlen
            · rename_i hcomp hor
              exact absurd (Or.inl hcomp) hor
          · -- incomplete
            split
            · rename_i v hev x d hdisp hcond hcomp hor
              refine ⟨?_, ?_⟩
              · exact inv_insert_int st k d _ v st.knownNumbers hInv hlen hk
                  hev hdisp hcond.1 hoc (fun x hx => hx)
                  (fun hc => absurd hc hcomp)
              · rw [stInsert_levels_length]; exact hlen
            · exact ⟨hInv, hlen⟩
        · exact ⟨hInv, hlen⟩
    · exact ⟨hInv, hlen⟩
  · exact ⟨hInv, hlen⟩

theorem opLoop_inv (N k : Nat) (ig : Bool) (L R : Term)
    (hsum : L.opCount + R.opCount + 1 = k) :
    ∀ (ops : List Op) (st : EngineState) (fc : Nat),
      EngineInv st → st.levels.length = k + 1 → 1 ≤ k →
      EngineInv (opLoop N k ig L R ops st fc).1 ∧
        (opLoop N k ig L R ops st fc).1.levels.length = k + 1 := by
  intro ops
  induction ops with
  | nil => intro st fc h1 h2 _; exact ⟨h1, h2⟩
  | cons op rest ih =>
    intro st fc h1 h2 hk
    rw [opLoop]
    split
    · exact ⟨h1, h2⟩
    · obtain ⟨h3, h4⟩ := processOp_inv N k L R op st fc h1 h2 hk hsum
      exact ih _ _ h3 h4 hk

theorem rightLoop_inv (N k : Nat) (ig : Bool) (L : Term) (i j : Nat)
    (hL : L.opCount = i) (hij : i + j + 1 = k) :
    ∀ (rights : List (String × Term)) (acc : EngineState × Nat),
      (∀ p ∈ rights, (p : String × Term).2.opCount = j) →
      EngineInv acc.1 → acc.1.levels.length = k + 1 → 1 ≤ k →
      EngineInv (rightLoop N k ig L rights acc).1 ∧
        (rightLoop N k ig L rights acc).1.levels.length = k + 1 := by
  intro rights
  induction rights with
  | nil => intro acc _ h1 h2 _; exact ⟨h1, h2⟩
  | cons p ps ih =>
    intro acc hall h1 h2 hk
    rw [rightLoop, List.foldl_cons]
    have hsum : L.opCount + p.2.opCount + 1 = k := by
      rw [hL, hall p (List.mem_cons_self _ _)]; exact hij
    obtain ⟨h3, h4⟩ :=
      opLoop_inv N k ig L p.2 hsum OperationList acc.1 acc.2 h1 h2 hk
    exact ih _ (fun q hq => hall q (List.mem_cons_of_mem _ hq)) h3 h4 hk

theorem leftLoop_inv (N k : Nat) (ig : Bool) (i j : Nat) (hij : i + j + 1 = k)
    (rights : List (String × Term))
    (hrights : ∀ p ∈ rights, (p : String × Term).2.opCount = j) :
    ∀ (lefts : List (String × Term)) (acc : EngineState × Nat),
      (∀ p ∈ lefts, (p : String × Term).2.opCount = i) →
      EngineInv acc.1 → acc.1.levels.length = k + 1 → 1 ≤ k →
      EngineInv (leftLoop N k ig lefts rights acc).1 ∧
        (leftLoop N k ig lefts rights acc).1.levels.length = k + 1 := by
  intro lefts
  induction lefts with
  | nil => intro acc _ h1 h2 _; exact ⟨h1, h2⟩
  | cons p ps ih =>
    intro acc hall h1 h2 hk
    rw [leftLoop, List.foldl_cons]
    obtain ⟨h3, h4⟩ := rightLoop_inv N k ig p.2 i j
      (hall p (List.mem_cons_self _ _)) hij rights acc hrights h1 h2 hk
    exact ih _ (fun q hq => hall q (List.mem_cons_of_mem _ hq)) h3 h4 hk

theorem compStep_inv (N k : Nat) (st : EngineState) (c : Nat × Nat)
    (hInv : EngineInv st) (hlen : st.levels.length = k + 1) (hk : 1 ≤ k)
    (hc : c.1 + c.2 + 1 = k) :
    EngineInv (compStep N k st c) ∧
      (compStep N k st c).levels.length = k + 1 := by
  simp only [compStep]
  have hlefts : ∀ p ∈ tableIter (st.levels.getD c.1 []),
      (p : String × Term).2.opCount = c.1 := by
    intro p hp
    exact hInv.opCountEq c.1 p.1 p.2 (by
      have := mem_tableIter p _ hp
      rw [levelsAt]
      simpa using this)
  have hrights : ∀ p ∈ tableIter (st.levels.getD c.2 []),
      (p : String × Term).2.opCount = c.2 := by
    intro p hp
    exact hInv.opCountEq c.2 p.1 p.2 (by
      have := mem_tableIter p _ hp
      rw [levelsAt]
      simpa using this)
  exact leftLoop_inv N k _ c.1 c.2 hc _ hrights _ (st, 0) hlefts hInv hlen hk

theorem getD_append_len {α : Type} (l : List α) (x d : α) :
    (l ++ [x]).getD l.length d = x := by
  induction l with
  | nil => rfl
  | cons y ys ih => simpa using ih

theorem mem_levelsAt_append_empty (st : EngineState) (i : Nat) (s : String)
    (t : Term)
    (h : (s, t) ∈ (st.levels ++ [[]]).getD i []) :
    (s, t) ∈ levelsAt st i := by
  rw [levelsAt]
  by_cases hi : i < st.levels.length
  · rw [getD_append_lt _ _ _ _ hi] at h; exact h
  · exfalso
    by_cases he : i = st.levels.length
    · rw [he, getD_append_len] at h; cases h
    · rw [getD_out_of_range _ _ _ (by simp; omega)] at h
      cases h

theorem mem_compositionPair (m : Nat) (c : Nat × Nat)
    (h : c ∈ compositionPair m) : c.1 + c.2 = m := by
  rw [compositionPair, List.mem_map] at h
  obtain ⟨t, ht, rfl⟩ := h
  rw [List.mem_range] at ht
  simp
  omega

theorem levelStep_inv (N : Nat) (st : EngineState) (k : Nat)
    (hInv : EngineInv st) (hlen : st.levels.length = k) (hk : 1 ≤ k) :
    EngineInv (levelStep N st k) ∧
      (levelStep N st k).levels.length = k + 1 := by
  simp only [levelStep]
  have hst1 : EngineInv { st with levels := st.levels ++ [[]] } := by
    constructor
    · exact hInv.known69
    · intro i s t h
      exact hInv.keyed i s t (mem_levelsAt_append_empty st i s t h)
    · intro i j s t t' hij hmi hc hnf hmj
      exact hInv.settled i j s t t' hij
        (mem_levelsAt_append_empty st i s t hmi) hc hnf
        (mem_levelsAt_append_empty st j s t' hmj)
    · intro i s t h1 h
      exact hInv.no69 i s t h1 (mem_levelsAt_append_empty st i s t h)
    · intro i s t h
      exact hInv.opCountEq i s t (mem_levelsAt_append_empty st i s t h)
  have hlen1 : ({ st with levels := st.levels ++ [[]] } :
      EngineState).levels.length = k + 1 := by
    simp [hlen]
  have hfold : ∀ (cs : List (Nat × Nat)), (∀ c ∈ cs, c.1 + c.2 + 1 = k) →
      ∀ s : EngineState, EngineInv s → s.levels.length = k + 1 →
      EngineInv (cs.foldl (compStep N k) s) ∧
        (cs.foldl (compStep N k) s).levels.length = k + 1 := by
    intro cs
    induction cs with
    | nil => intro _ s h1 h2; exact ⟨h1, h2⟩
    | cons c cst ih =>
      intro hall s h1 h2
      rw [List.foldl_cons]
      obtain ⟨h3, h4⟩ := compStep_inv N k s c h1 h2 hk
        (hall c (List.mem_cons_self _ _))
      exact ih (fun q hq => hall q (List.mem_cons_of_mem _ hq)) _ h3 h4
  exact hfold _ (fun c hc => by
      have := mem_compositionPair _ c hc
      omega) _ hst1 hlen1

theorem initState_inv : EngineInv initState := by
  constructor
  · constructor
    · exact List.mem_cons_self _ _
    · exact List.mem_cons_of_mem _ (List.mem_cons_self _ _)
  · intro i s t h
    cases i with
    | zero =>
      right
      replace h : (s, t) ∈ initTable := h
      simp only [initTable, List.mem_cons, List.not_mem_nil, or_false] at h
      rcases h with h | h | h | h | h | h <;>
        (injection h with h1 h2; subst h1; subst h2)
      · exact ⟨⟨-6, 1, 1⟩, rfl, by decide, fun hc => by cases hc⟩
      · exact ⟨⟨6, 1, 1⟩, rfl, by decide, fun hc => by cases hc⟩
      · exact ⟨⟨-9, 1, 1⟩, rfl, by decide, fun hc => by cases hc⟩
      · exact ⟨⟨9, 1, 1⟩, rfl, by decide, fun hc => by cases hc⟩
      · exact ⟨⟨69, 1, 1⟩, rfl, by decide, fun hc => by cases hc⟩
      · exact ⟨⟨-69, 1, 1⟩, rfl, by decide, fun hc => by cases hc⟩
    | succ m =>
      exfalso
      rw [levelsAt, getD_out_of_range] at h
      · cases h
      · simp [initState]
  · intro i j s t t' hij hmi hc hnf hmj
    have hj : 1 ≤ j := by omega
    rw [levelsAt, getD_out_of_range] at hmj
    · cases hmj
    · simp [initState]; omega
  · intro i s t h1 h
    exfalso
    rw [levelsAt, getD_out_of_range] at h
    · cases h
    · simp [initState]; omega
  · intro i s t h
    cases i with
    | zero =>
      replace h : (s, t) ∈ initTable := h
      simp only [initTable, List.mem_cons, List.not_mem_nil, or_false] at h
      rcases h with h | h | h | h | h | h <;>
        (injection h with h1 h2; subst h1; subst h2) <;> rfl
    | succ m =>
      exfalso
      rw [levelsAt, getD_out_of_range] at h
      · cases h
      · simp [initState]

theorem runAux_inv (N : Nat) :
    ∀ m, EngineInv (runAux N m) ∧ (runAux N m).levels.length = m + 1 := by
  intro m
  induction m with
  | zero => exact ⟨initState_inv, rfl⟩
  | succ m ih =>
    have hs : runAux N (m + 1) = levelStep N (runAux N m) (m + 1) := by
      rw [runAux, runAux, List.range_succ, List.foldl_append,
        List.foldl_cons, List.foldl_nil]
    rw [hs]
    exact levelStep_inv N _ _ ih.1 (by omega) (by omega)

theorem engine_inv (N : Nat) : EngineInv (getExpression_version3 N) :=
  (runAux_inv N N).1

/-! ### Claim C1: commutative pruning uses `break` -/

theorem opLoop_breaks (N k : Nat) (L R : Term) (st : EngineState)
    (fc : Nat) : opLoop N k true L R OperationList st fc = (st, fc) := by
  rw [OperationList, opLoop]
  rw [if_pos]
  exact ⟨rfl, Or.inl rfl⟩

theorem foldl_const {α β : Type} (f : α → β → α) (h : ∀ a b, f a b = a) :
    ∀ (l : List β) (a : α), l.foldl f a = a := by
  intro l
  induction l with
  | nil => intro a; rfl
  | cons x xs ih => intro a; rw [List.foldl_cons, h]; exact ih a

/-- Claim C1 (the code as written): when a composition has `i < j`, the
operator loop `break`s at the very first operator `+`, so *no* operator at
all is attempted for that composition — the whole composition leaves the
state untouched, instead of still trying `-` and `/` as the spec
describes. -/
theorem c1_pruned_composition_is_noop (N k : Nat) (st : EngineState)
    (c : Nat × Nat) (h : c.1 < c.2) : compStep N k st c = st := by
  simp only [compStep]
  rw [decide_eq_true h]
  have hright : ∀ (L : Term) (rights : List (String × Term))
      (acc : EngineState × Nat), rightLoop N k true L rights acc = acc := by
    intro L rights acc
    rw [rightLoop]
    apply foldl_const
    intro a p
    rw [opLoop_breaks]
  have hleft : ∀ (lefts rights : List (String × Term))
      (acc : EngineState × Nat),
      leftLoop N k true lefts rights acc = acc := by
    intro lefts rights acc
    rw [leftLoop]
    apply foldl_const
    intro a p
    rw [hright]
  rw [hleft]

/-- Witness for C1 at a concrete input: the `(0, 1)` composition of level
2 does nothing at all. -/
theorem c1_pruned_composition_is_noop_witness :
    compStep 2 2 initState (0, 1) = initState :=
  c1_pruned_composition_is_noop 2 2 initState (0, 1) (by decide)

/-! ### Claim C2: settled monotonicity -/

/-- Claim C2: once a complete term keyed by the decimal display `s` of its
value is retained at level `k`, no term is retained under `s` at any
strictly later level `j`. -/
theorem c2_settled_monotone (N k j : Nat) (s : String) (t : Term)
    (hkj : k < j)
    (hmem : (s, t) ∈ (getExpression_version3 N).levels.getD k [])
    (hc : t.complete = true)
    (hs : ∃ v, t.evaluate = EResult.ok v ∧ v.display = some s) :
    tableGet ((getExpression_version3 N).levels.getD j []) s = none := by
  obtain ⟨v, hev, hdisp⟩ := hs
  have hInv := engine_inv N
  apply tableGet_eq_none
  intro t' hmem'
  exact hInv.settled k j s t t' hkj hmem hc
    (display_not_floatKey v s hdisp) hmem'

set_option maxRecDepth 200000 in
/-- Witness for C2: the complete level-1 term `(6 + 9)` for 15 excludes
the key `15` from level 2. -/
theorem c2_settled_monotone_witness :
    tableGet ((getExpression_version3 1).levels.getD 2 []) ("15") = none :=
  c2_settled_monotone 1 1 2 ("15")
    (Term.comp (Term.atom 6) Op.plus (Term.atom 9)) (by omega) (by decide)
    (by decide) ⟨⟨15, 1, 1⟩, by decide, by decide⟩

/-! ### Claim C3: where the nine-expression lives -/

/-- The source's `ExampleNine`: `(-6 + 9) * (-6 + 9)`. -/
def exampleNineTerm : Term :=
  Term.comp (Term.comp (Term.atom (-6)) Op.plus (Term.atom 9)) Op.times
    (Term.comp (Term.atom (-6)) Op.plus (Term.atom 9))

/-- Counterexample to claim C3: with budget `N = 2`, the level-2 entry
for `9` is not `(-6 + 9) * (-6 + 9)` — that term costs three operations,
and every level-2 entry is a two-operation term.  (In fact level 2 holds
no entry for `9` at all at this budget.) -/
theorem c3_counterexample_nine_not_at_level_2 :
    tableGet ((getExpression_version3 2).levels.getD 2 []) ("9") ≠
      some exampleNineTerm := by
  intro h
  have hmem := tableGet_mem _ _ _ h
  have hInv := engine_inv 2
  have hoc := hInv.opCountEq 2 _ _ hmem
  rw [exampleNineTerm] at hoc
  simp [Term.opCount] at hoc

/-- Amended claim C3: every entry retained at level `k` is a term of
exactly `k` operations; `(-6 + 9) * (-6 + 9)` evaluates exactly to the
integer 9 and is complete, but it is a three-operation term, so it can be
retained only at level 3 — never in the level-2 table. -/
theorem c3_amended_nine_needs_three_operations :
    (∀ N k s t, (s, t) ∈ (getExpression_version3 N).levels.getD k [] →
      t.opCount = k) ∧
      exampleNineTerm.evaluate = EResult.ok ⟨9, 1, 1⟩ ∧
      exampleNineTerm.complete = true ∧
      exampleNineTerm.opCount = 3 := by
  refine ⟨?_, by decide, by decide, by decide⟩
  intro N k s t hmem
  exact (engine_inv N).opCountEq k s t hmem

/-- Witness for the hypothesis-bearing part of C3's amended claim. -/
theorem c3_amended_nine_needs_three_operations_witness :
    (Term.atom 9).opCount = 0 :=
  c3_amended_nine_needs_three_operations.1 0 0 ("9") (Term.atom 9)
    (by decide)

/-! ### Claim C10: 69 and -69 never surface -/

theorem projTable_nil : projTable [] = [] := rfl

theorem getD_map_projTable :
    ∀ (l : List (List (String × Term))) (k : Nat),
      (l.map projTable).getD k [] = projTable (l.getD k []) := by
  intro l
  induction l with
  | nil => intro k; cases k <;> rfl
  | cons x xs ih => intro k; cases k with
    | zero => rfl
    | succ m => simpa using ih m

theorem mem_projTable (tbl : List (String × Term)) (p : String × String)
    (hp : p ∈ projTable tbl) :
    ∃ t : Term, (p.1, t) ∈ tbl ∧ t.complete = true := by
  rw [projTable] at hp
  have haux : ∀ (l : List (String × Term)) (obj : List (String × String)),
      (∀ q ∈ obj, ∃ t : Term, ((q : String × String).1, t) ∈ tbl ∧
        t.complete = true) →
      (∀ x ∈ l, (x : String × Term) ∈ tbl) →
      ∀ q ∈ l.foldl (fun obj p =>
          if p.2.complete ∧ p.2.displayStr ≠ (String.mk []) then
            tableSet obj p.1 p.2.displayStr
          else obj) obj,
        ∃ t : Term, ((q : String × String).1, t) ∈ tbl ∧
          t.complete = true := by
    intro l
    induction l with
    | nil => intro obj hobj _ q hq; exact hobj q hq
    | cons x xs ih =>
      intro obj hobj hl q hq
      rw [List.foldl_cons] at hq
      refine ih _ ?_ (fun y hy => hl y (List.mem_cons_of_mem _ hy)) q hq
      intro r hr
      by_cases hcpl : x.2.complete ∧ x.2.displayStr ≠ (String.mk [])
      · rw [if_pos hcpl] at hr
        rcases mem_tableSet _ _ _ _ hr with h1 | h1
        · refine ⟨x.2, ?_, hcpl.1⟩
          rw [h1]
          simpa using hl x (List.mem_cons_self _ _)
        · exact hobj r h1.1
      · rw [if_neg hcpl] at hr
        exact hobj r hr
  exact haux (tableIter tbl) [] (fun q hq => absurd hq (List.not_mem_nil q))
    (fun x hx => mem_tableIter x tbl hx) p hp

theorem opCount_zero_incomplete (t : Term) (h : t.opCount = 0) :
    t.complete = false := by
  cases t with
  | atom v => rfl
  | comp l op r => rw [Term.opCount] at h; omega

/-- Claim C10: the projected output never contains an entry keyed `69` or
`-69`, at any level and any budget: `knownNumbers` starts with both keys
so no composed term is ever retained under them, and the level-0 atoms are
dropped by the projector because `Atom2` carries no `complete` flag. -/
theorem c10_projection_never_shows_69 (N k : Nat) (p : String × String)
    (hp : p ∈ (project (getExpression_version3 N).levels).getD k []) :
    p.1 ≠ ("69") ∧ p.1 ≠ ("-69") := by
  rw [project, getD_map_projTable] at hp
  obtain ⟨t, hmem, hc⟩ := mem_projTable _ p hp
  have hInv := engine_inv N
  cases k with
  | zero =>
    exfalso
    have hoc := hInv.opCountEq 0 p.1 t hmem
    rw [opCount_zero_incomplete t hoc] at hc
    cases hc
  | succ m =>
    exact hInv.no69 (m + 1) p.1 t (by omega) hmem

set_option maxRecDepth 200000 in
/-- Witness for C10: the first projected level-1 entry, `0` rendered as
`(69 - 69)`, is not keyed `69` or `-69`. -/
theorem c10_projection_never_shows_69_witness :
    (("0", "(69 - 69)") : String × String).1 ≠ ("69") ∧
      (("0", "(69 - 69)") : String × String).1 ≠ ("-69") :=
  c10_projection_never_shows_69 1 1 ("0", "(69 - 69)") (by decide)

/-! ### Claim C8: the 20-character key guard -/

theorem stInsert_levels (st : EngineState) (k : Nat) (key : String)
    (t : Term) : (stInsert st k key t).levels =
      st.levels.set k (tableSet (st.levels.getD k []) key t) := rfl

/-- Counterexample to claim C8: a 20-character decimal key is *discarded*
(the guard keeps only keys shorter than 20 characters), even when the
candidate is otherwise eligible (fresh key, below budget, adjacency
holds). -/
theorem c8_counterexample_20_char_key_discarded :
    Exact.display ⟨10000000000000000001, 1, 1⟩ =
        some ("10000000000000000001") ∧
      ("10000000000000000001" : String).length = 20 ∧
      processOp 2 1 (Term.atom 10000000000000000000) (Term.atom 1) Op.plus
          ⟨[], [[], []]⟩ 0 =
        ⟨[], [[], []]⟩ := by
  refine ⟨by decide, by decide, by decide⟩

/-- Amended claim C8: during level construction an integer result is
discarded whenever its decimal key has 20 or more characters, and is
retained (under that key, at the current level) whenever the key is
shorter than 20 characters and the candidate is otherwise eligible. -/
theorem c8_amended_key_guard (N k : Nat) (st : EngineState) (fc : Nat)
    (L R : Term) (op : Op) (v : Exact) (d : String)
    (hadj : L.end_ ≠ R.start)
    (hev : (Term.comp L op R).evaluate = EResult.ok v)
    (hdisp : v.display = some d)
    (hfresh : d ∉ st.knownNumbers)
    (helig : (Term.comp L op R).complete = true ∨ k < N)
    (hk : k < st.levels.length) :
    (20 ≤ d.length → processOp N k L R op st fc = st) ∧
      (d.length < 20 →
        tableGet ((processOp N k L R op st fc).levels.getD k []) d =
          some (Term.comp L op R)) := by
  simp only [processOp, hev, hdisp]
  constructor
  · intro h20
    rw [if_pos hadj, if_neg (fun hcont => absurd hcont.2 (by omega))]
  · intro h19
    rw [if_pos hadj, if_pos ⟨hfresh, h19⟩]
    by_cases hcomp : (Term.comp L op R).complete = true
    · rw [if_pos hcomp, if_pos helig, stPush_levels, stInsert_levels,
        getD_set_self _ _ _ _ hk, tableGet_tableSet_self]
    · rw [if_neg hcomp, if_pos helig, stInsert_levels,
        getD_set_self _ _ _ _ hk, tableGet_tableSet_self]

/-- Witness for the amended C8: a 19-character key is retained, a
20-character key is discarded. -/
theorem c8_amended_key_guard_witness :
    (tableGet ((processOp 2 1 (Term.atom 1000000000000000000) (Term.atom 1)
          Op.plus ⟨[], [[], []]⟩ 0).levels.getD 1 [])
        ("1000000000000000001") =
      some (Term.comp (Term.atom 1000000000000000000) Op.plus
        (Term.atom 1))) ∧
      processOp 2 1 (Term.atom 10000000000000000000) (Term.atom 1) Op.plus
          ⟨[], [[], []]⟩ 0 =
        ⟨[], [[], []]⟩ :=
  ⟨(c8_amended_key_guard 2 1 ⟨[], [[], []]⟩ 0 (Term.atom 1000000000000000000)
      (Term.atom 1) Op.plus ⟨1000000000000000001, 1, 1⟩
      ("1000000000000000001") (by decide) (by decide) (by decide)
      (by decide) (Or.inr (by omega)) (by decide)).2 (by decide),
    (c8_amended_key_guard 2 1 ⟨[], [[], []]⟩ 0 (Term.atom 10000000000000000000)
      (Term.atom 1) Op.plus ⟨10000000000000000001, 1, 1⟩
      ("10000000000000000001") (by decide) (by decide) (by decide)
      (by decide) (Or.inr (by omega)) (by decide)).1 (by decide)⟩

/-- Witness for C9 at a concrete input. -/
theorem c9_power_zero_returns_base_witness :
    Exact.toThe ⟨9, 1, 1⟩ ⟨0, 1, 1⟩ = EResult.ok ⟨9, 1, 1⟩ :=
  c9_power_zero_returns_base ⟨9, 1, 1⟩ (by decide)
